import Mathlib

/-!
Shallow embedding of the `ton-labs-assembler` core: the cell-tree writer
(`writer.rs`), the debug-information trees (`debug.rs`) and the range/bit
parsers (`parse.rs`), together with theorems settling the specification
claims about them.

Machine bytes are embedded as big-endian bit lists (`List Bool`); a Rust
`&[u8]` command together with a bit count `n` becomes a `List Bool` and the
count `n` (so Rust's `command.len() * 8` becomes `command.length`).  Bytes
produced by the parsers are `Nat`s below 256, with `% 256` marking the points
where Rust truncates to `u8`.  Fallible operations return `Option` or
`Except`; a Rust panic (a failed `assert!`, `unwrap` or `expect`) is a `none`
or a dedicated `panicked` result.
-/

/-! ## Error taxonomy (`errors.rs`) -/

/-- Errors over the parameters of an operation (`errors.rs`, `ParameterError`). -/
inductive ParameterError where
  | unexpectedType
  | notSupported
  | outOfRange
deriving DecidableEq

/-- A position in a file (`errors.rs`, `Position`). -/
structure Position where
  filename : String
  line : Nat
  column : Nat
deriving DecidableEq

mutual

/-- Errors over operations (`errors.rs`, `OperationError`). -/
inductive OperationError where
  | parameter (name : String) (err : ParameterError)
  | tooManyParameters
  | logicErrorInParameters (msg : String)
  | missingRequiredParameters
  | missingBlock
  | nested (err : CompileError)
  | notFitInSlice

/-- Top-level compile error (`errors.rs`, `CompileError`). -/
inductive CompileError where
  | syntaxError (pos : Position) (explanation : String)
  | unknownOperation (pos : Position) (name : String)
  | operation (pos : Position) (name : String) (err : OperationError)

end

/-! ## Cells and cell builders (external `ton_types` primitives)

Modelled from the spec: the cell primitive is out of scope for the repository
("assumed as an external immutable, content-addressed, reference-counted tree
node with a fixed capacity", §1), with data payload of at most 1023 bits and
at most 4 child references (§3). -/

/-- Modelled from the spec: an immutable cell, a bit payload plus an ordered
list of child cells ("Cell (external): immutable, content-addressed node;
data payload ≤ 1023 bits; ≤ 4 child references", §3).  The capacity limits
are enforced by the builder operations below, not by the type. -/
inductive Cell where
  | mk (data : List Bool) (refs : List Cell)

/-- Data payload of a cell. -/
def Cell.data : Cell → List Bool
  | .mk d _ => d

/-- Child references of a cell. -/
def Cell.refs : Cell → List Cell
  | .mk _ r => r

mutual

/-- Boolean (decidable) equality of cells. -/
def cellBeq : Cell → Cell → Bool
  | .mk d r, .mk d2 r2 => d == d2 && cellListBeq r r2

/-- Boolean (decidable) equality of cell lists. -/
def cellListBeq : List Cell → List Cell → Bool
  | [], [] => true
  | c :: cs, c2 :: cs2 => cellBeq c c2 && cellListBeq cs cs2
  | _, _ => false

end

/-- Modelled from the spec: the representation hash of a cell is "a
deterministic digest of its content and children's hashes" (§3), assumed
collision-free; the digest is therefore embedded as the cell content itself,
and comparison of hash hex strings becomes `cellBeq`. -/
def Cell.repr_hash (c : Cell) : Cell := c

/-- Modelled from the spec: the mutable staging form of a cell ("Cell Builder
(mutable staging form of a cell): tracks bits-used, bits-free,
references-used (≤4), references-free; supports appending raw bits and
appending a finished child reference; fails when either capacity is
exceeded", §3). -/
structure BuilderData where
  data : List Bool
  refs : List Cell

/-- Modelled from the spec: a fresh, empty builder. -/
def BuilderData.new : BuilderData := ⟨[], []⟩

/-- Modelled from the spec: number of data bits used so far. -/
def BuilderData.bits_used (b : BuilderData) : Nat := b.data.length

/-- Modelled from the spec: number of reference slots used (≤ 4). -/
def BuilderData.references_used (b : BuilderData) : Nat := b.refs.length

/-- Modelled from the spec: number of free reference slots out of 4. -/
def BuilderData.references_free (b : BuilderData) : Nat := 4 - b.refs.length

/-- Modelled from the spec: append the first `bits` bits of `command` to the
builder's data; fails (leaving the builder untouched, §5) if `command` holds
fewer than `bits` bits or the 1023-bit capacity would be exceeded. -/
def BuilderData.append_raw (b : BuilderData) (command : List Bool) (bits : Nat) :
    Option BuilderData :=
  if bits ≤ command.length ∧ b.data.length + bits ≤ 1023 then
    some ⟨b.data ++ command.take bits, b.refs⟩
  else none

/-- Modelled from the spec: append a finished child cell as a reference;
fails if the 4-reference capacity would be exceeded. -/
def BuilderData.checked_append_reference (b : BuilderData) (c : Cell) :
    Option BuilderData :=
  if b.refs.length + 1 ≤ 4 then some ⟨b.data, b.refs ++ [c]⟩ else none

/-- Modelled from the spec: one-way conversion of a builder into an immutable
cell (§3). -/
def BuilderData.into_cell (b : BuilderData) : Cell := .mk b.data b.refs

/-- Modelled from the spec: append all data bits and all references of the
slice view of a finished cell; fails (leaving the builder untouched) if
either the 1023-bit or the 4-reference capacity would be exceeded. -/
def BuilderData.checked_append_references_and_data (b : BuilderData) (s : Cell) :
    Option BuilderData :=
  if b.data.length + s.data.length ≤ 1023 ∧ b.refs.length + s.refs.length ≤ 4 then
    some ⟨b.data ++ s.data, b.refs ++ s.refs⟩
  else none

/-- Modelled from the spec: unchecked append of a child cell reference. -/
def BuilderData.append_reference_cell (b : BuilderData) (c : Cell) : BuilderData :=
  ⟨b.data, b.refs ++ [c]⟩

/-! ## Debug positions and debug nodes (`debug.rs`) -/

/-- Position information for lines (`debug.rs`, `DbgPos`). -/
structure DbgPos where
  filename : String
  line : Nat
  line_code : Nat
deriving DecidableEq

/-- A map from cell-data offsets to position information (`debug.rs`,
`OffsetPos`, a `BTreeMap<usize, DbgPos>`), embedded as an association list
sorted by key. -/
abbrev OffsetPos := List (Nat × DbgPos)

/-- Key-sorted insertion, overwriting a previous binding of the same key
(the semantics of `BTreeMap::insert`). -/
def OffsetPos.insert : OffsetPos → Nat → DbgPos → OffsetPos
  | [], k, v => [(k, v)]
  | (k2, v2) :: rest, k, v =>
    if k < k2 then (k, v) :: (k2, v2) :: rest
    else if k = k2 then (k, v) :: rest
    else (k2, v2) :: OffsetPos.insert rest k v

/-- Information about the components of a node (`debug.rs`, `DbgNode`). -/
inductive DbgNode where
  | mk (offsets : OffsetPos) (children : List DbgNode)

/-- Offset map of a debug node. -/
def DbgNode.offsets : DbgNode → OffsetPos
  | .mk o _ => o

/-- Children of a debug node. -/
def DbgNode.children : DbgNode → List DbgNode
  | .mk _ c => c

/-- Constructs an empty node (`DbgNode::new`). -/
def DbgNode.new : DbgNode := .mk [] []

/-- Constructs a node with the data at offset 0 associated to `pos`
(`DbgNode::from`; `from` is a Lean keyword, hence the name). -/
def DbgNode.fromPos (pos : DbgPos) : DbgNode := .mk (OffsetPos.insert [] 0 pos) []

/-- Registers an offset/position association, overwriting the previous
binding if any (`DbgNode::append`). -/
def DbgNode.append (self : DbgNode) (offset : Nat) (pos : DbgPos) : DbgNode :=
  .mk (OffsetPos.insert self.offsets offset pos) self.children

/-- Appends a node to the children of `self` (`DbgNode::append_node`).  The
Rust code runs `assert!(self.children.len() <= 4)` before pushing; a failed
assertion is a panic, embedded as `none`. -/
def DbgNode.append_node (self : DbgNode) (dbg : DbgNode) : Option DbgNode :=
  if self.children.length ≤ 4 then some (.mk self.offsets (self.children ++ [dbg]))
  else none

/-- The `for child in dbg.children { self.append_node(child) }` loop of
`DbgNode::inline_node`, as a fold over `append_node`. -/
def appendNodes (n : DbgNode) : List DbgNode → Option DbgNode
  | [] => some n
  | d :: ds =>
    match n.append_node d with
    | some n2 => appendNodes n2 ds
    | none => none

/-- Merges `self` with the content of `dbg` shifted by `offset`
(`DbgNode::inline_node`): every offset binding of `dbg` is inserted shifted
by `offset`, then every child of `dbg` is appended via `append_node`. -/
def DbgNode.inline_node (self : DbgNode) (offset : Nat) (dbg : DbgNode) : Option DbgNode :=
  appendNodes
    (.mk (dbg.offsets.foldl (fun m e => OffsetPos.insert m (e.1 + offset) e.2) self.offsets)
         self.children)
    dbg.children

/-! ## Debug info index (`debug.rs`, `DbgInfo`) -/

/-- Lookup in the cell-hash map (the `BTreeMap<String, OffsetPos>` of
`DbgInfo`, embedded as an association list; keys are cell representation
hashes, compared with `cellBeq`). -/
def dbgMapGet : List (Cell × OffsetPos) → Cell → Option OffsetPos
  | [], _ => none
  | (k2, v) :: rest, k => if cellBeq k k2 then some v else dbgMapGet rest k

/-- Overwriting insertion in the cell-hash map (the semantics of
`BTreeMap::insert`). -/
def dbgMapPut : List (Cell × OffsetPos) → Cell → OffsetPos → List (Cell × OffsetPos)
  | [], k, v => [(k, v)]
  | (k2, v2) :: rest, k, v =>
    if cellBeq k k2 then (k, v) :: rest else (k2, v2) :: dbgMapPut rest k v

/-- Stores data-offset position information for a bunch of cells
(`debug.rs`, `DbgInfo`). -/
structure DbgInfo where
  map : List (Cell × OffsetPos)

/-- Empty constructor (`DbgInfo::new`). -/
def DbgInfo.new : DbgInfo := ⟨[]⟩

/-- Inserts some data-offset info for a representation hash if it is new
(`DbgInfo::insert`, `self.map.entry(key.to_hex_string()).or_insert(tree)`). -/
def DbgInfo.insert (self : DbgInfo) (key : Cell) (tree : OffsetPos) : DbgInfo :=
  match dbgMapGet self.map key with
  | some _ => self
  | none => ⟨self.map ++ [(key, tree)]⟩

/-- Merges two indices (`DbgInfo::append`, `self.map.append(&mut other.map)`).
The Rust standard library documents `BTreeMap::append` as moving all of
`other` into `self`, values from `other` overwriting values of `self` on key
collision, and leaving `other` empty; the result is the pair (new `self`,
new `other`). -/
def DbgInfo.append (self other : DbgInfo) : DbgInfo × DbgInfo :=
  (⟨other.map.foldl (fun m kv => dbgMapPut m kv.1 kv.2) self.map⟩, ⟨[]⟩)

mutual

/-- Adds a cell to the cell hash map, given its `DbgNode`, recursively
(`DbgInfo::collect`, the traversal used by `DbgInfo::from`): insert the
cell's offsets under its hash if unseen, then recurse into each reference
paired with the child debug node of the same index.  The Rust child access
`dbg.children[i]` panics when the debug node has fewer children than the
cell has references; the panic is embedded as `none`. -/
def DbgInfo.collect (self : DbgInfo) : Cell → DbgNode → Option DbgInfo
  | .mk cdata crefs, dbg =>
    collectChildren (self.insert (Cell.mk cdata crefs).repr_hash dbg.offsets) crefs dbg.children

/-- The indexed loop over a cell's references inside `DbgInfo::collect`. -/
def collectChildren (info : DbgInfo) : List Cell → List DbgNode → Option DbgInfo
  | [], _ => some info
  | _ :: _, [] => none
  | c :: cs, d :: ds =>
    match DbgInfo.collect info c d with
    | some info2 => collectChildren info2 cs ds
    | none => none

end

/-- Constructor from a single cell (`DbgInfo::from`; `from` is a Lean
keyword, hence the name). -/
def DbgInfo.fromCellNode (cell : Cell) (node : DbgNode) : Option DbgInfo :=
  DbgInfo.collect DbgInfo.new cell node

/-! ## The cell-tree writer (`writer.rs`, `CodePage0`) -/

/-- First TON codepage (`writer.rs`, `CodePage0`): the list of cells being
constructed and their debug nodes. -/
structure CodePage0 where
  cells : List BuilderData
  dbg : List DbgNode

/-- Result of a writer operation: success with the new writer state, an
`OperationError` with the writer state as returned (Rust `&mut self` plus
`Result`), or a panic. -/
inductive WriterRes where
  | ok (w : CodePage0)
  | err (e : OperationError) (w : CodePage0)
  | panicked

/-- In-place update of the last element of a list (Rust
`*list.last_mut().unwrap() = v`); meaningful only for nonempty lists. -/
def setLast (l : List α) (a : α) : List α := l.dropLast ++ [a]

/-- Constructor (`Writer::new` for `CodePage0`): one empty cell builder and
one empty debug node. -/
def CodePage0.new : CodePage0 := ⟨[BuilderData.new], [DbgNode.new]⟩

/-- Writes a command to a cell's data (`CodePage0::write_command_bitstring`):
try appending to the last cell, merging `dbg` into its debug node via
`inline_node` at the pre-append bit offset; otherwise open a fresh cell, and
fail with `NotFitInSlice` if the command does not fit a fresh cell either. -/
def CodePage0.write_command_bitstring (self : CodePage0) (command : List Bool)
    (bits : Nat) (dbg : DbgNode) : WriterRes :=
  let fresh : WriterRes :=
    match BuilderData.new.append_raw command bits with
    | some code => .ok ⟨self.cells ++ [code], self.dbg ++ [dbg]⟩
    | none => .err .notFitInSlice self
  match self.cells.getLast? with
  | some last =>
    let offset := last.bits_used
    match last.append_raw command bits with
    | some last2 =>
      match self.dbg.getLast? with
      | some node =>
        match node.inline_node offset dbg with
        | some node2 => .ok ⟨setLast self.cells last2, setLast self.dbg node2⟩
        | none => .panicked
      | none => .panicked
    | none => fresh
  | none => fresh

/-- Writes a command with no additional data (`CodePage0::write_command`):
all `8 * command.len()` bits of the command, which in the bit-list embedding
is `command.length`. -/
def CodePage0.write_command (self : CodePage0) (command : List Bool) (dbg : DbgNode) :
    WriterRes :=
  self.write_command_bitstring command command.length dbg

/-- Writes a composite command (`CodePage0::write_composite_command`): append
the command bits and one child reference to the last cell, provided it keeps
strictly more than one free reference slot beforehand (one slot stays
reserved for finalization); record `pos` at the pre-append offset and append
`dbg` as a child of the segment's debug node.  On failure, open a fresh
segment seeded with `pos` at offset 0 and `dbg` as sole child, failing with
`NotFitInSlice` if even that is impossible. -/
def CodePage0.write_composite_command (self : CodePage0) (command : List Bool)
    (reference : BuilderData) (pos : DbgPos) (dbg : DbgNode) : WriterRes :=
  let fresh : WriterRes :=
    let cell := reference.into_cell
    match (BuilderData.new.append_raw command command.length).bind
        (fun code => code.checked_append_reference cell) with
    | some code =>
      match ((DbgNode.new).append 0 pos).append_node dbg with
      | some node => .ok ⟨self.cells ++ [code], self.dbg ++ [node]⟩
      | none => .panicked
    | none => .err .notFitInSlice self
  match self.cells.getLast? with
  | some last =>
    let offset := last.bits_used
    if 1 < last.references_free then
      match last.append_raw command command.length with
      | some last2 =>
        match last2.checked_append_reference reference.into_cell with
        | some last3 =>
          match self.dbg.getLast? with
          | some node =>
            match (node.append offset pos).append_node dbg with
            | some node2 => .ok ⟨setLast self.cells last3, setLast self.dbg node2⟩
            | none => .panicked
          | none => .panicked
        | none => fresh
      | none => fresh
    else fresh
  | none => fresh

/-- One iteration of the finalize loop (`CodePage0::finalize`): `destination`
is the newly popped last segment, `next` its debug node, `cursor` the cell
accumulated so far and `dbg` its debug node.  If `destination` has at least
as many free reference slots as `cursor` uses and appending `cursor`'s bits
and references succeeds, `cursor` is inlined and its debug node merged via
`inline_node` at `destination`'s pre-append bit offset; otherwise `cursor`'s
finished cell is attached as a reference and its debug node appended as a
child. -/
def finalizeStep (destination : BuilderData) (next : DbgNode) (cursor : BuilderData)
    (dbg : DbgNode) : Option (BuilderData × DbgNode) :=
  let offset := destination.bits_used
  let slice := cursor.into_cell
  let link : Option (BuilderData × DbgNode) :=
    (next.append_node dbg).map
      (fun n => (destination.append_reference_cell cursor.into_cell, n))
  if destination.references_free ≥ cursor.references_used then
    match destination.checked_append_references_and_data slice with
    | some d => (next.inline_node offset dbg).map (fun n => (d, n))
    | none => link
  else link

/-- The `while !self.cells.is_empty()` loop of `CodePage0::finalize`, with
the remaining segment and debug-node lists already reversed (so popping the
Rust vectors' tails is taking the heads).  Popping a debug node from an
exhausted list is a panic (`none`); leftover debug nodes after the cells run
out are ignored, as in the Rust loop. -/
def finalizeAux : List BuilderData → List DbgNode → BuilderData → DbgNode →
    Option (BuilderData × DbgNode)
  | [], _, cursor, dbg => some (cursor, dbg)
  | _ :: _, [], _, _ => none
  | destination :: cs, next :: ns, cursor, dbg =>
    match finalizeStep destination next cursor dbg with
    | some (c, d) => finalizeAux cs ns c d
    | none => none

/-- Finalizes the writer (`CodePage0::finalize`): pop the last segment as the
cursor and fold the remaining segments onto it tail-first.  Popping from an
empty list is a panic (`none`). -/
def CodePage0.finalize (self : CodePage0) : Option (BuilderData × DbgNode) :=
  match self.cells.reverse, self.dbg.reverse with
  | c :: cs, d :: ds => finalizeAux cs ds c d
  | _, _ => none

/-! ## Writer histories -/

/-- One call to the writer interface, with its arguments. -/
inductive WriterOp where
  | cmd (command : List Bool) (dbg : DbgNode)
  | cmdBits (command : List Bool) (bits : Nat) (dbg : DbgNode)
  | composite (command : List Bool) (reference : BuilderData) (pos : DbgPos) (dbg : DbgNode)

/-- Dispatches one writer operation. -/
def writerStep (w : CodePage0) : WriterOp → WriterRes
  | .cmd c d => w.write_command c d
  | .cmdBits c b d => w.write_command_bitstring c b d
  | .composite c r p d => w.write_composite_command c r p d

/-- Runs a sequence of writer operations, requiring every one of them to
succeed (`some` exactly for the all-successful histories). -/
def runOk (w : CodePage0) : List WriterOp → Option CodePage0
  | [] => some w
  | op :: ops =>
    match writerStep w op with
    | .ok w2 => runOk w2 ops
    | _ => none

mutual

/-- Structural parity of a cell and a debug node: at every node reached by
the lockstep traversal, the cell's reference count equals the debug node's
child count. -/
def mirrors : Cell → DbgNode → Bool
  | .mk _ refs, .mk _ children => mirrorsList refs children

/-- Pairwise structural parity of a reference list and a child list, false
when the lengths differ. -/
def mirrorsList : List Cell → List DbgNode → Bool
  | [], [] => true
  | _ :: _, [] => false
  | [], _ :: _ => false
  | c :: cs, d :: ds => mirrors c d && mirrorsList cs ds

end

/-- Well-formedness of a writer call: the debug node handed over describes
the data it annotates — no children for a plain (data-only) command, and
structural parity with the reference cell for a composite command. -/
def WfOp : WriterOp → Prop
  | .cmd _ d => d.children = []
  | .cmdBits _ _ d => d.children = []
  | .composite _ r _ d => mirrors r.into_cell d = true

/-- Structural parity of a writer's segment list with its debug-node list,
taken in reverse (most recent first): every builder's cell mirrors its debug
node, and the two lists have the same length. -/
def SegsOk : List BuilderData → List DbgNode → Prop
  | [], [] => True
  | b :: bs, n :: ns => mirrors b.into_cell n = true ∧ SegsOk bs ns
  | _, _ => False

/-! ## Range and bit parsers (`parse.rs`) -/

/-- Digit value of a character in a given base (Rust `char::to_digit`):
decimal digits, then lowercase and uppercase letters from 10 on, accepted
when below `base`. -/
def char_to_digit (c : Char) (base : Nat) : Option Nat :=
  let v := c.toNat
  let d : Option Nat :=
    if 48 ≤ v ∧ v ≤ 57 then some (v - 48)
    else if 97 ≤ v ∧ v ≤ 122 then some (v - 97 + 10)
    else if 65 ≤ v ∧ v ≤ 90 then some (v - 65 + 10)
    else none
  d.bind (fun x => if x < base then some x else none)

/-- The character loop of `parse_slice_base` followed by its trailing
completion logic, over the state (`bits`, `acc`, `data`, `completion_tag`)
of the Rust function.  `u8` truncations of shifted digits are `% 256`. -/
def psbLoop (base : Nat) : List Char → Nat → Nat → List Nat → Bool →
    Except ParameterError (List Nat)
  | [], bits, acc, data, completion_tag =>
    if bits ≠ 0 then
      let acc2 := if !completion_tag then acc ||| (1 <<< (7 - bits)) else acc
      if acc2 ≠ 0 ∨ data.isEmpty then .ok (data ++ [acc2]) else .ok data
    else
      if !completion_tag then .ok (data ++ [128]) else .ok data
  | ch :: rest, bits, acc, data, completion_tag =>
    if completion_tag then .error .unexpectedType
    else
      match char_to_digit ch base with
      | some x =>
        if bits < 4 then
          psbLoop base rest (bits + 4) (acc ||| ((x <<< (4 - bits)) % 256)) data completion_tag
        else
          psbLoop base rest (bits - 4) ((x <<< (12 - bits)) % 256)
            (data ++ [acc ||| (x >>> (bits - 4))]) completion_tag
      | none =>
        if ch = '_' then psbLoop base rest bits acc data true
        else .error .unexpectedType

/-- Converts a sequence of base-`base` digit characters, optionally ended by
the completion marker `'_'`, into a packed big-endian byte string starting
at bit offset `bits` of the first byte (`parse.rs`, `parse_slice_base`). -/
def parse_slice_base (input : String) (bits : Nat) (base : Nat) :
    Except ParameterError (List Nat) :=
  psbLoop base input.toList bits 0 [] false

/-- Naive hex-decoding of an even-length hex digit string, two digits per
byte, as the specification describes the expected output of
`parse_slice_base` ("must reproduce exactly `len/2` bytes identical to naive
hex-decoding"); stated from the spec's words for comparison with the
implementation. -/
def hexDecode : List Char → List Nat
  | c1 :: c2 :: rest =>
    (16 * ((char_to_digit c1 16).getD 0) + (char_to_digit c2 16).getD 0) :: hexDecode rest
  | _ => []

/-- Value of a nonempty all-digit character sequence in a base (the digit
accumulation inside Rust `from_str_radix`), `none` on the empty sequence or
any non-digit. -/
def digitsToNat (base : Nat) (cs : List Char) : Option Nat :=
  if cs.isEmpty then none
  else
    cs.foldl
      (fun acc c => acc.bind (fun a => (char_to_digit c base).map (fun d => a * base + d)))
      (some 0)

/-- Base-10 string-to-`i32` conversion (Rust `i32::from_str_radix(p, 10)`):
an optional single leading sign, then at least one decimal digit, the value
within the `i32` range (`none` models both `InvalidDigit` and overflow). -/
def from_str_radix_i32 (s : String) : Option Int :=
  match s.toList with
  | '+' :: rest =>
    (digitsToNat 10 rest).bind
      (fun n => if (n : Int) ≤ 2147483647 then some (n : Int) else none)
  | '-' :: rest =>
    (digitsToNat 10 rest).bind
      (fun n => if (n : Int) ≤ 2147483648 then some (-(n : Int)) else none)
  | _ =>
    (digitsToNat 10 s.toList).bind
      (fun n => if (n : Int) ≤ 2147483647 then some (n : Int) else none)

/-- The numeric range parser (`parse.rs`, `parse_range`), at the
instantiation used by `parse_const_u8_setcp`: `i32` values against a
half-open range `lo..hi` (start bound included, end bound excluded);
`UnexpectedType` on malformed input, `OutOfRange` outside the bounds. -/
def parse_range_i32 (lo hi : Int) (p : String) : Except ParameterError Int :=
  match from_str_radix_i32 p with
  | some value =>
    if value < lo then .error .outOfRange
    else if hi ≤ value then .error .outOfRange
    else .ok value
  | none => .error .unexpectedType

/-- Parses an `i32` integer in `[-15, 240)` and casts it as a `u8`
(`parse.rs`, `parse_const_u8_setcp`); the Rust `as u8` cast is the
two's-complement truncation `% 256`. -/
def parse_const_u8_setcp (par : String) : Except ParameterError Nat :=
  (parse_range_i32 (-15) 240 par).map (fun z => (z % 256).toNat)

/-! ## Basic lemmas on cell equality and the hash maps -/

mutual

theorem cellBeq_iff : ∀ (a b : Cell), cellBeq a b = true ↔ a = b
  | .mk d r, .mk d2 r2 => by
    simp only [cellBeq, Bool.and_eq_true, beq_iff_eq, Cell.mk.injEq]
    exact and_congr Iff.rfl (cellListBeq_iff r r2)

theorem cellListBeq_iff : ∀ (a b : List Cell), cellListBeq a b = true ↔ a = b
  | [], [] => by simp [cellListBeq]
  | c :: cs, c2 :: cs2 => by
    simp only [cellListBeq, Bool.and_eq_true, List.cons.injEq]
    exact and_congr (cellBeq_iff c c2) (cellListBeq_iff cs cs2)
  | [], _ :: _ => by simp [cellListBeq]
  | _ :: _, [] => by simp [cellListBeq]

end

theorem cellBeq_refl (a : Cell) : cellBeq a a = true := (cellBeq_iff a a).mpr rfl

theorem cellBeq_eq_false_of_ne {a b : Cell} (h : a ≠ b) : cellBeq a b = false := by
  cases hb : cellBeq a b
  · rfl
  · exact absurd ((cellBeq_iff a b).mp hb) h

theorem dbgMapGet_append_single {m : List (Cell × OffsetPos)} {k : Cell} (v : OffsetPos)
    (h : dbgMapGet m k = none) : dbgMapGet (m ++ [(k, v)]) k = some v := by
  induction m with
  | nil => simp [dbgMapGet, cellBeq_refl]
  | cons e rest ih =>
    obtain ⟨k2, v2⟩ := e
    simp only [dbgMapGet, List.cons_append] at h ⊢
    cases hb : cellBeq k k2 with
    | true => rw [hb] at h; simp at h
    | false =>
      rw [hb] at h
      simp only [if_neg Bool.false_ne_true] at h ⊢
      exact ih h

theorem dbgMapGet_put_self (m : List (Cell × OffsetPos)) (k : Cell) (v : OffsetPos) :
    dbgMapGet (dbgMapPut m k v) k = some v := by
  induction m with
  | nil => simp [dbgMapPut, dbgMapGet, cellBeq_refl]
  | cons e rest ih =>
    obtain ⟨k2, v2⟩ := e
    simp only [dbgMapPut]
    cases hb : cellBeq k k2 with
    | true => simp [dbgMapGet, cellBeq_refl]
    | false => simp [dbgMapGet, hb, ih]

theorem dbgMapGet_put_other {k k2 : Cell} (m : List (Cell × OffsetPos)) (v : OffsetPos)
    (h : k2 ≠ k) : dbgMapGet (dbgMapPut m k v) k2 = dbgMapGet m k2 := by
  induction m with
  | nil => simp [dbgMapPut, dbgMapGet, cellBeq_eq_false_of_ne h]
  | cons e rest ih =>
    obtain ⟨ke, ve⟩ := e
    simp only [dbgMapPut]
    cases hb : cellBeq k ke with
    | true =>
      have hke : k = ke := (cellBeq_iff k ke).mp hb
      subst hke
      simp [dbgMapGet, cellBeq_eq_false_of_ne h]
    | false => simp [dbgMapGet, hb, ih]

theorem dbgMapGet_eq_none_of_not_mem {l : List (Cell × OffsetPos)} {k : Cell}
    (h : k ∉ l.map Prod.fst) : dbgMapGet l k = none := by
  induction l with
  | nil => rfl
  | cons e rest ih =>
    obtain ⟨ke, ve⟩ := e
    simp only [List.map, List.mem_cons, not_or] at h
    simp [dbgMapGet, cellBeq_eq_false_of_ne h.1, ih h.2]

theorem dbgMapGet_fold_put :
    ∀ (l a : List (Cell × OffsetPos)) (k : Cell), (l.map Prod.fst).Nodup →
      dbgMapGet (l.foldl (fun m kv => dbgMapPut m kv.1 kv.2) a) k =
        match dbgMapGet l k with
        | some v => some v
        | none => dbgMapGet a k
  | [], a, k, _ => by simp [dbgMapGet]
  | (k0, v0) :: rest, a, k, hnd => by
    simp only [List.map, List.nodup_cons] at hnd
    have ih := dbgMapGet_fold_put rest (dbgMapPut a k0 v0) k hnd.2
    simp only [List.foldl_cons]
    rw [ih]
    cases hb : cellBeq k k0 with
    | true =>
      have hk : k = k0 := (cellBeq_iff k k0).mp hb
      subst hk
      rw [dbgMapGet_eq_none_of_not_mem hnd.1]
      simp [dbgMapGet, cellBeq_refl, dbgMapGet_put_self]
    | false =>
      have hk : k ≠ k0 := fun he => by rw [he, cellBeq_refl] at hb; cases hb
      simp only [dbgMapGet, hb, if_neg Bool.false_ne_true]
      cases hrest : dbgMapGet rest k with
      | some v => rfl
      | none => simp [dbgMapGet_put_other a v0 hk]

/-! ## Claim theorems: debug info index -/

/-- C8: `DbgInfo::insert` binds a cell hash only when the hash is not already
present; inserting two different offset maps under a (fresh) hash retains
only the first, and the second insert leaves the map unchanged. -/
theorem dbginfo_insert_first_writer_wins (info : DbgInfo) (k : Cell) (t1 t2 : OffsetPos)
    (hfresh : dbgMapGet info.map k = none) :
    (info.insert k t1).insert k t2 = info.insert k t1
    ∧ dbgMapGet ((info.insert k t1).insert k t2).map k = some t1 := by
  have h1 : info.insert k t1 = ⟨info.map ++ [(k, t1)]⟩ := by
    simp [DbgInfo.insert, hfresh]
  have h2 : dbgMapGet (info.map ++ [(k, t1)]) k = some t1 :=
    dbgMapGet_append_single t1 hfresh
  constructor
  · rw [h1]
    simp [DbgInfo.insert, h2]
  · rw [h1]
    simp [DbgInfo.insert, h2]

/-- C8 witness: inserting twice under the hash of the empty cell into the
empty index keeps the first offset map. -/
theorem dbginfo_insert_first_writer_wins_witness :
    dbgMapGet DbgInfo.new.map (Cell.mk [] []) = none
    ∧ ((DbgInfo.new.insert (Cell.mk [] []) [(0, ⟨"a", 1, 1⟩)]).insert (Cell.mk [] []) []
        = DbgInfo.new.insert (Cell.mk [] []) [(0, ⟨"a", 1, 1⟩)]
      ∧ dbgMapGet ((DbgInfo.new.insert (Cell.mk [] []) [(0, ⟨"a", 1, 1⟩)]).insert
            (Cell.mk [] []) []).map (Cell.mk [] []) = some [(0, ⟨"a", 1, 1⟩)]) :=
  ⟨rfl, dbginfo_insert_first_writer_wins DbgInfo.new (Cell.mk [] []) [(0, ⟨"a", 1, 1⟩)] [] rfl⟩

/-- C10: `DbgInfo::append` moves every binding of `other` into `self`,
leaves `other` empty, and on a hash present in both maps the binding from
`other` overwrites the one in `self` (right-biased, the documented semantics
of `BTreeMap::append`). -/
theorem dbginfo_append_right_biased (a b : DbgInfo) (k : Cell)
    (hnd : (b.map.map Prod.fst).Nodup) :
    (DbgInfo.append a b).2.map = []
    ∧ dbgMapGet (DbgInfo.append a b).1.map k =
        match dbgMapGet b.map k with
        | some v => some v
        | none => dbgMapGet a.map k :=
  ⟨rfl, dbgMapGet_fold_put b.map a.map k hnd⟩

/-- C10 witness: a one-entry index appended over an index binding the same
hash; the binding of `other` wins and `other` is emptied. -/
theorem dbginfo_append_right_biased_witness :
    ((DbgInfo.mk [(Cell.mk [] [], [(0, ⟨"b", 2, 2⟩)])]).map.map Prod.fst).Nodup
    ∧ ((DbgInfo.append (DbgInfo.mk [(Cell.mk [] [], [])])
          (DbgInfo.mk [(Cell.mk [] [], [(0, ⟨"b", 2, 2⟩)])])).2.map = []
      ∧ dbgMapGet (DbgInfo.append (DbgInfo.mk [(Cell.mk [] [], [])])
            (DbgInfo.mk [(Cell.mk [] [], [(0, ⟨"b", 2, 2⟩)])])).1.map (Cell.mk [] []) =
          match dbgMapGet (DbgInfo.mk [(Cell.mk [] [], [(0, ⟨"b", 2, 2⟩)])]).map
              (Cell.mk [] []) with
          | some v => some v
          | none => dbgMapGet (DbgInfo.mk [(Cell.mk [] [], [])]).map (Cell.mk [] [])) :=
  ⟨by simp, dbginfo_append_right_biased (DbgInfo.mk [(Cell.mk [] [], [])])
    (DbgInfo.mk [(Cell.mk [] [], [(0, ⟨"b", 2, 2⟩)])]) (Cell.mk [] []) (by simp)⟩

/-- C6: the assertion in `DbgNode::append_node` is `children.len() <= 4`
before the push, so five successive `append_node` calls on an empty node all
pass the assertion and produce a node with five children — the claimed
four-child ceiling is not enforced by the code. -/
theorem append_node_allows_five_children :
    (((((DbgNode.new.append_node DbgNode.new).bind
      (fun n => DbgNode.append_node n DbgNode.new)).bind
      (fun n => DbgNode.append_node n DbgNode.new)).bind
      (fun n => DbgNode.append_node n DbgNode.new)).bind
      (fun n => DbgNode.append_node n DbgNode.new))
      = some (DbgNode.mk [] [DbgNode.new, DbgNode.new, DbgNode.new, DbgNode.new, DbgNode.new])
    ∧ (DbgNode.mk [] [DbgNode.new, DbgNode.new, DbgNode.new, DbgNode.new,
        DbgNode.new]).children.length = 5 :=
  ⟨rfl, rfl⟩

/-! ## Claim theorems: range parser -/

/-- C9: `parse_const_u8_setcp` rejects `"240"` with `OutOfRange`, maps
`"-15"` to `241` and `"239"` to `239`; in general every parsed `i32` value
`v` with `-15 ≤ v < 240` yields `Ok(v mod 256)` and every parsed value
outside that range yields `OutOfRange`. -/
theorem parse_const_u8_setcp_c9 :
    parse_const_u8_setcp "240" = .error .outOfRange
    ∧ parse_const_u8_setcp "-15" = .ok 241
    ∧ parse_const_u8_setcp "239" = .ok 239
    ∧ ∀ (s : String) (v : Int), from_str_radix_i32 s = some v →
        ((-15 ≤ v ∧ v < 240 → parse_const_u8_setcp s = .ok (v % 256).toNat)
         ∧ ((v < -15 ∨ 240 ≤ v) → parse_const_u8_setcp s = .error .outOfRange)) := by
  refine ⟨rfl, rfl, rfl, ?_⟩
  intro s v h
  constructor
  · rintro ⟨h1, h2⟩
    simp only [parse_const_u8_setcp, parse_range_i32, h]
    rw [if_neg (by omega), if_neg (by omega)]
    rfl
  · intro hout
    simp only [parse_const_u8_setcp, parse_range_i32, h]
    rcases hout with h1 | h2
    · rw [if_pos (by omega)]
      rfl
    · rw [if_neg (by omega), if_pos (by omega)]
      rfl

/-- C9 witness: the general range statement applied to the input `"100"`. -/
theorem parse_const_u8_setcp_c9_witness :
    from_str_radix_i32 "100" = some 100
    ∧ ((-15 ≤ (100 : Int) ∧ (100 : Int) < 240 →
          parse_const_u8_setcp "100" = .ok (((100 : Int)) % 256).toNat)
       ∧ (((100 : Int) < -15 ∨ 240 ≤ (100 : Int)) →
          parse_const_u8_setcp "100" = .error .outOfRange)) :=
  ⟨rfl, parse_const_u8_setcp_c9.2.2.2 "100" 100 rfl⟩

/-! ## Claim theorems: bit-string parser -/

theorem char_to_digit_lt {c : Char} {b d : Nat} (h : char_to_digit c b = some d) :
    d < b := by
  simp only [char_to_digit, Option.bind_eq_bind, Option.bind_eq_some] at h
  obtain ⟨x, _, hx⟩ := h
  by_cases hlt : x < b
  · rw [if_pos hlt] at hx
    cases hx
    exact hlt
  · rw [if_neg hlt] at hx
    cases hx

theorem hex_acc_first : ∀ d < 16, 0 ||| ((d <<< 4) % 256) = 16 * d := by decide

theorem hex_acc_push : ∀ d1 < 16, ∀ d2 < 16, (16 * d1) ||| (d2 >>> 0) = 16 * d1 + d2 := by
  decide

theorem hex_acc_reset : ∀ d < 16, (d <<< 8) % 256 = 0 := by decide

theorem psbLoop_even_hex :
    ∀ (cs : List Char), cs.length % 2 = 0 →
      (∀ c ∈ cs, (char_to_digit c 16).isSome = true) →
      ∀ data, psbLoop 16 cs 0 0 data false = .ok (data ++ (hexDecode cs ++ [128]))
  | [], _, _, data => by simp [psbLoop, hexDecode]
  | [c], h, _, _ => by simp at h
  | c1 :: c2 :: rest, h, hh, data => by
    have h1 : (char_to_digit c1 16).isSome = true := hh c1 (by simp)
    have h2 : (char_to_digit c2 16).isSome = true := hh c2 (by simp)
    obtain ⟨d1, hd1⟩ := Option.isSome_iff_exists.mp h1
    obtain ⟨d2, hd2⟩ := Option.isSome_iff_exists.mp h2
    have hd1lt : d1 < 16 := char_to_digit_lt hd1
    have hd2lt : d2 < 16 := char_to_digit_lt hd2
    have hlen : rest.length % 2 = 0 := by
      simp only [List.length_cons] at h
      omega
    have ih := psbLoop_even_hex rest hlen (fun c hc => hh c (by simp [hc]))
      (data ++ [16 * d1 + d2])
    rw [psbLoop]
    simp only [if_neg Bool.false_ne_true, hd1]
    rw [if_pos (by omega)]
    rw [hex_acc_first d1 hd1lt]
    rw [psbLoop]
    simp only [if_neg Bool.false_ne_true, hd2]
    rw [if_neg (by omega)]
    rw [hex_acc_push d1 hd1lt d2 hd2lt, hex_acc_reset d2 hd2lt]
    rw [ih]
    simp [hexDecode, hd1, hd2]

/-- C3 counterexample: on the even-length hex input `"4142"` at offset 0,
`parse_slice_base` returns three bytes — the two hex-decoded bytes followed
by the completion byte `0x80` — not the two bytes the claim states. -/
theorem parse_slice_base_4142_counterexample :
    parse_slice_base "4142" 0 16 = .ok [65, 66, 128]
    ∧ parse_slice_base "4142" 0 16 ≠ .ok [65, 66] := by
  refine ⟨rfl, ?_⟩
  intro hcontra
  rw [show parse_slice_base "4142" 0 16 = Except.ok [65, 66, 128] from rfl] at hcontra
  simp at hcontra

/-- C3 (amended): for every even-length hex digit string with no completion
marker, `parse_slice_base` at offset 0 in base 16 succeeds and returns the
naive hex-decoding of the input followed by one completion byte `0x80`. -/
theorem parse_slice_base_even_hex (s : String)
    (heven : s.length % 2 = 0)
    (hhex : ∀ c ∈ s.toList, (char_to_digit c 16).isSome = true) :
    parse_slice_base s 0 16 = .ok (hexDecode s.toList ++ [128]) := by
  have h := psbLoop_even_hex s.toList heven hhex []
  simpa [parse_slice_base] using h

/-- C3 witness: the amended statement evaluated on `"4142"`. -/
theorem parse_slice_base_even_hex_witness :
    ("4142" : String).length % 2 = 0
    ∧ (∀ c ∈ ("4142" : String).toList, (char_to_digit c 16).isSome = true)
    ∧ parse_slice_base "4142" 0 16 = .ok (hexDecode ("4142" : String).toList ++ [128]) :=
  ⟨by decide, by decide, parse_slice_base_even_hex "4142" (by decide) (by decide)⟩

/-! ## Claim theorems: finalize inlining (C1) -/

/-- C1 (amended): one finalize step inlines — and never links — whenever the
destination has at least as many free reference slots as the cursor uses
*and* the combined data fits the 1023-bit capacity; the cursor's bits and
references are appended to the destination and the cursor's debug node is
merged via `inline_node` at the destination's pre-append bit offset. -/
theorem finalize_step_inlines (destination : BuilderData) (next : DbgNode)
    (cursor : BuilderData) (dbg : DbgNode)
    (hrefs : destination.references_free ≥ cursor.references_used)
    (hcap : destination.references_used ≤ 4)
    (hbits : destination.bits_used + cursor.bits_used ≤ 1023) :
    finalizeStep destination next cursor dbg =
      (next.inline_node destination.bits_used dbg).map
        (fun n => (⟨destination.data ++ cursor.data, destination.refs ++ cursor.refs⟩, n)) := by
  have hsum : destination.refs.length + cursor.refs.length ≤ 4 := by
    simp only [BuilderData.references_free, BuilderData.references_used] at hrefs hcap
    omega
  have happ : destination.checked_append_references_and_data cursor.into_cell
      = some ⟨destination.data ++ cursor.data, destination.refs ++ cursor.refs⟩ := by
    simp only [BuilderData.checked_append_references_and_data, BuilderData.into_cell,
      Cell.data, Cell.refs]
    rw [if_pos ⟨by simpa [BuilderData.bits_used] using hbits, hsum⟩]
  simp only [finalizeStep, if_pos hrefs, happ]

/-- C1 witness: the amended statement applied to an empty destination and a
one-bit cursor. -/
theorem finalize_step_inlines_witness :
    (BuilderData.mk [] []).references_free ≥ (BuilderData.mk [true] []).references_used
    ∧ (BuilderData.mk [] []).references_used ≤ 4
    ∧ (BuilderData.mk [] []).bits_used + (BuilderData.mk [true] []).bits_used ≤ 1023
    ∧ finalizeStep (BuilderData.mk [] []) DbgNode.new (BuilderData.mk [true] []) DbgNode.new =
        (DbgNode.new.inline_node (BuilderData.mk [] []).bits_used DbgNode.new).map
          (fun n => (⟨(BuilderData.mk [] []).data ++ (BuilderData.mk [true] []).data,
            (BuilderData.mk [] []).refs ++ (BuilderData.mk [true] []).refs⟩, n)) :=
  ⟨by decide, by decide, by decide,
    finalize_step_inlines (BuilderData.mk [] []) DbgNode.new (BuilderData.mk [true] [])
      DbgNode.new (by decide) (by decide) (by decide)⟩

set_option maxRecDepth 4000 in
/-- C1 counterexample: a two-segment history of two 512-bit writes; at the
finalize step the destination has all four reference slots free and the
cursor uses none (the claim's hypothesis holds), yet the combined 1024 bits
do not fit, so finalize attaches the cursor as a child reference of the
root instead of inlining it. -/
theorem finalize_links_despite_refs_fit :
    runOk CodePage0.new
      [.cmdBits (List.replicate 512 false) 512 DbgNode.new,
       .cmdBits (List.replicate 512 false) 512 DbgNode.new]
      = some ⟨[⟨List.replicate 512 false, []⟩, ⟨List.replicate 512 false, []⟩],
              [DbgNode.new, DbgNode.new]⟩
    ∧ (BuilderData.mk (List.replicate 512 false) []).references_free
        ≥ (BuilderData.mk (List.replicate 512 false) []).references_used
    ∧ CodePage0.finalize
        ⟨[⟨List.replicate 512 false, []⟩, ⟨List.replicate 512 false, []⟩],
         [DbgNode.new, DbgNode.new]⟩
        = some (⟨List.replicate 512 false, [Cell.mk (List.replicate 512 false) []]⟩,
                DbgNode.mk [] [DbgNode.new])
    ∧ (BuilderData.mk (List.replicate 512 false)
        [Cell.mk (List.replicate 512 false) []]).references_used = 1 :=
  ⟨rfl, by decide, rfl, rfl⟩

/-! ## Claim theorems: error handling of the writer (C7, C4) -/

/-- C7: whenever a writer operation returns an operation error, the writer
state it leaves behind is exactly the state before the call. -/
theorem writer_error_preserves_state (w : CodePage0) (op : WriterOp)
    (e : OperationError) (w2 : CodePage0) (h : writerStep w op = .err e w2) :
    w2 = w := by
  cases op with
  | cmd c d =>
    simp only [writerStep, CodePage0.write_command, CodePage0.write_command_bitstring] at h
    repeat' split at h
    all_goals first
      | (cases h; rfl)
      | simp at h
  | cmdBits c bits d =>
    simp only [writerStep, CodePage0.write_command_bitstring] at h
    repeat' split at h
    all_goals first
      | (cases h; rfl)
      | simp at h
  | composite c r p d =>
    simp only [writerStep, CodePage0.write_composite_command] at h
    repeat' split at h
    all_goals first
      | (cases h; rfl)
      | simp at h

/-- C7 witness: a one-bit command announced as one bit long but handed over
as an empty byte slice fails, and the state is untouched. -/
theorem writer_error_preserves_state_witness :
    writerStep CodePage0.new (.cmdBits [] 1 DbgNode.new)
      = .err .notFitInSlice CodePage0.new
    ∧ CodePage0.new = CodePage0.new :=
  ⟨rfl, writer_error_preserves_state CodePage0.new (.cmdBits [] 1 DbgNode.new)
    .notFitInSlice CodePage0.new rfl⟩

/-- C4: for a command slice holding at least `bits` bits,
`write_command_bitstring` fails with `NotFitInSlice` exactly when
`bits > 1023`; when the bits fit the last segment they are appended there
and the debug node is merged via `inline_node` at the pre-append offset (a
panic of that merge is a panic of the call); on overflow a fresh segment is
opened whose debug node is `dbg` itself. -/
theorem write_command_bitstring_c4 (w : CodePage0) (command : List Bool) (bits : Nat)
    (dbg : DbgNode) (hlen : bits ≤ command.length) :
    (w.write_command_bitstring command bits dbg = .err .notFitInSlice w ↔ 1023 < bits)
    ∧ (∀ cs b ns n, w.cells = cs ++ [b] → w.dbg = ns ++ [n] →
        b.bits_used + bits ≤ 1023 →
        w.write_command_bitstring command bits dbg =
          match n.inline_node b.bits_used dbg with
          | some n2 => .ok ⟨cs ++ [⟨b.data ++ command.take bits, b.refs⟩], ns ++ [n2]⟩
          | none => .panicked)
    ∧ (∀ cs b, w.cells = cs ++ [b] → 1023 < b.bits_used + bits → bits ≤ 1023 →
        w.write_command_bitstring command bits dbg =
          .ok ⟨w.cells ++ [⟨command.take bits, []⟩], w.dbg ++ [dbg]⟩) := by
  refine ⟨?_, ?_, ?_⟩
  · rcases List.eq_nil_or_concat' w.cells with hc | ⟨cs, b, hc⟩
    · simp only [CodePage0.write_command_bitstring, hc, List.getLast?_nil]
      by_cases hfit : bits ≤ 1023
      · rw [show BuilderData.new.append_raw command bits
            = some ⟨BuilderData.new.data ++ command.take bits, BuilderData.new.refs⟩ from by
          simp [BuilderData.append_raw, BuilderData.new, hlen, hfit]]
        simp only [WriterRes.ok.injEq]
        constructor
        · intro hcontra
          exact absurd hcontra (by simp)
        · omega
      · rw [show BuilderData.new.append_raw command bits = none from by
          simp only [BuilderData.append_raw, BuilderData.new]
          rw [if_neg (by simp; omega)]]
        simp only [true_iff, iff_true]
        omega
    · simp only [CodePage0.write_command_bitstring, hc, List.getLast?_concat]
      by_cases hfit : b.data.length + bits ≤ 1023
      · rw [show b.append_raw command bits
            = some ⟨b.data ++ command.take bits, b.refs⟩ from by
          simp [BuilderData.append_raw, hlen, hfit]]
        have hb : ¬ (1023 : Nat) < bits := by omega
        simp only [hb, iff_false]
        intro hcontra
        split at hcontra
        · split at hcontra
          · exact absurd hcontra (by simp)
          · exact absurd hcontra (by simp)
        · exact absurd hcontra (by simp)
      · rw [show b.append_raw command bits = none from by
          simp only [BuilderData.append_raw]
          rw [if_neg (by omega)]]
        by_cases hfresh : bits ≤ 1023
        · rw [show BuilderData.new.append_raw command bits
              = some ⟨BuilderData.new.data ++ command.take bits, BuilderData.new.refs⟩ from by
            simp [BuilderData.append_raw, BuilderData.new, hlen, hfresh]]
          simp only [iff_false, show ¬ (1023 : Nat) < bits from by omega]
          intro hcontra
          exact absurd hcontra (by simp)
        · rw [show BuilderData.new.append_raw command bits = none from by
            simp only [BuilderData.append_raw, BuilderData.new]
            rw [if_neg (by simp; omega)]]
          simp only [true_iff, iff_true]
          omega
  · intro cs b ns n hc hd hfit
    simp only [CodePage0.write_command_bitstring, hc, hd, List.getLast?_concat]
    rw [show b.append_raw command bits = some ⟨b.data ++ command.take bits, b.refs⟩ from by
      simp only [BuilderData.append_raw, BuilderData.bits_used] at hfit ⊢
      rw [if_pos ⟨hlen, hfit⟩]]
    cases hi : n.inline_node b.bits_used dbg with
    | some n2 => simp [setLast, hi]
    | none => simp [hi]
  · intro cs b hc hover hfresh
    simp only [CodePage0.write_command_bitstring, hc, List.getLast?_concat]
    rw [show b.append_raw command bits = none from by
      simp only [BuilderData.append_raw, BuilderData.bits_used] at hover ⊢
      rw [if_neg (by omega)]]
    rw [show BuilderData.new.append_raw command bits
        = some ⟨BuilderData.new.data ++ command.take bits, BuilderData.new.refs⟩ from by
      simp [BuilderData.append_raw, BuilderData.new, hlen, hfresh]]
    simp [BuilderData.new, hc]

/-- C4 witness: the characterization applied to a fresh writer and a one-bit
command. -/
theorem write_command_bitstring_c4_witness :
    (1 : Nat) ≤ ([true] : List Bool).length
    ∧ ((CodePage0.new.write_command_bitstring [true] 1 DbgNode.new
          = .err .notFitInSlice CodePage0.new ↔ 1023 < (1 : Nat))
      ∧ (∀ cs b ns n, CodePage0.new.cells = cs ++ [b] → CodePage0.new.dbg = ns ++ [n] →
          b.bits_used + 1 ≤ 1023 →
          CodePage0.new.write_command_bitstring [true] 1 DbgNode.new =
            match n.inline_node b.bits_used DbgNode.new with
            | some n2 => .ok ⟨cs ++ [⟨b.data ++ ([true] : List Bool).take 1, b.refs⟩],
                ns ++ [n2]⟩
            | none => .panicked)
      ∧ (∀ cs b, CodePage0.new.cells = cs ++ [b] → 1023 < b.bits_used + 1 → 1 ≤ 1023 →
          CodePage0.new.write_command_bitstring [true] 1 DbgNode.new =
            .ok ⟨CodePage0.new.cells ++ [⟨([true] : List Bool).take 1, []⟩],
              CodePage0.new.dbg ++ [DbgNode.new]⟩)) :=
  ⟨by decide, write_command_bitstring_c4 CodePage0.new [true] 1 DbgNode.new (by decide)⟩

/-! ## Shape lemmas for the writer primitives -/

theorem append_raw_shape {b : BuilderData} {cmd : List Bool} {bits : Nat} {b2 : BuilderData}
    (h : b.append_raw cmd bits = some b2) :
    b2 = ⟨b.data ++ cmd.take bits, b.refs⟩ := by
  simp only [BuilderData.append_raw] at h
  split at h
  · cases h; rfl
  · cases h

theorem checked_append_reference_shape {b : BuilderData} {c : Cell} {b2 : BuilderData}
    (h : b.checked_append_reference c = some b2) :
    b2 = ⟨b.data, b.refs ++ [c]⟩ ∧ b.refs.length + 1 ≤ 4 := by
  simp only [BuilderData.checked_append_reference] at h
  split at h
  next hcond => cases h; exact ⟨rfl, hcond⟩
  next => cases h

theorem checked_append_refs_data_shape {b : BuilderData} {s : Cell} {b2 : BuilderData}
    (h : b.checked_append_references_and_data s = some b2) :
    b2 = ⟨b.data ++ s.data, b.refs ++ s.refs⟩
    ∧ b.data.length + s.data.length ≤ 1023 ∧ b.refs.length + s.refs.length ≤ 4 := by
  simp only [BuilderData.checked_append_references_and_data] at h
  split at h
  next hcond => cases h; exact ⟨rfl, hcond⟩
  next => cases h

theorem append_node_shape {n d n2 : DbgNode} (h : n.append_node d = some n2) :
    n2 = .mk n.offsets (n.children ++ [d]) ∧ n.children.length ≤ 4 := by
  simp only [DbgNode.append_node] at h
  split at h
  next hcond => cases h; exact ⟨rfl, hcond⟩
  next => cases h

theorem appendNodes_shape :
    ∀ {l : List DbgNode} {n n2 : DbgNode}, appendNodes n l = some n2 →
      n2.offsets = n.offsets ∧ n2.children = n.children ++ l
  | [], n, n2, h => by cases h; simp
  | d :: ds, n, n2, h => by
    simp only [appendNodes] at h
    cases ha : n.append_node d with
    | none => rw [ha] at h; cases h
    | some n3 =>
      rw [ha] at h
      obtain ⟨hn3, _⟩ := append_node_shape ha
      obtain ⟨ho, hc⟩ := appendNodes_shape h
      subst hn3
      constructor
      · simpa [DbgNode.offsets] using ho
      · rw [hc]
        simp [DbgNode.children]

theorem inline_node_shape {n : DbgNode} {off : Nat} {d n2 : DbgNode}
    (h : n.inline_node off d = some n2) :
    n2.children = n.children ++ d.children := by
  obtain ⟨_, hc⟩ := appendNodes_shape h
  simpa [DbgNode.children] using hc

theorem mirrors_into_cell (b : BuilderData) (n : DbgNode) :
    mirrors b.into_cell n = mirrorsList b.refs n.children := by
  cases n with
  | mk o c => rfl

theorem mirrorsList_append :
    ∀ {xs : List Cell} {ys : List DbgNode} {xs2 : List Cell} {ys2 : List DbgNode},
      mirrorsList xs ys = true → mirrorsList xs2 ys2 = true →
      mirrorsList (xs ++ xs2) (ys ++ ys2) = true
  | [], [], _, _, _, h2 => by simpa
  | [], _ :: _, _, _, h1, _ => by simp [mirrorsList] at h1
  | _ :: _, [], _, _, h1, _ => by simp [mirrorsList] at h1
  | x :: xs, y :: ys, xs2, ys2, h1, h2 => by
    simp only [mirrorsList, Bool.and_eq_true] at h1
    simp only [List.cons_append, mirrorsList, Bool.and_eq_true]
    exact ⟨h1.1, mirrorsList_append h1.2 h2⟩

/-! ## Success inversion for the writer operations -/

theorem write_command_bitstring_ok_inv {w : CodePage0} {command : List Bool} {bits : Nat}
    {dbg : DbgNode} {w2 : CodePage0}
    (h : w.write_command_bitstring command bits dbg = .ok w2) :
    (∃ cs b ns n b2 n2, w.cells = cs ++ [b] ∧ w.dbg = ns ++ [n]
      ∧ b.append_raw command bits = some b2
      ∧ n.inline_node b.bits_used dbg = some n2
      ∧ w2 = ⟨cs ++ [b2], ns ++ [n2]⟩)
    ∨ (∃ code, BuilderData.new.append_raw command bits = some code
        ∧ w2 = ⟨w.cells ++ [code], w.dbg ++ [dbg]⟩) := by
  simp only [CodePage0.write_command_bitstring] at h
  rcases List.eq_nil_or_concat' w.cells with hc | ⟨cs, b, hc⟩
  · rw [show w.cells.getLast? = none from by rw [hc]; rfl] at h
    right
    cases hf : BuilderData.new.append_raw command bits with
    | some code =>
      rw [hf] at h
      cases h
      exact ⟨code, rfl, rfl⟩
    | none => rw [hf] at h; cases h
  · rw [show w.cells.getLast? = some b from by rw [hc]; exact List.getLast?_concat _] at h
    simp only [] at h
    cases hf : b.append_raw command bits with
    | some b2 =>
      rw [hf] at h
      rcases List.eq_nil_or_concat' w.dbg with hd | ⟨ns, n, hd⟩
      · rw [show w.dbg.getLast? = none from by rw [hd]; rfl] at h
        cases h
      · rw [show w.dbg.getLast? = some n from by rw [hd]; exact List.getLast?_concat _] at h
        simp only [] at h
        cases hi : n.inline_node b.bits_used dbg with
        | some n2 =>
          rw [hi] at h
          cases h
          left
          exact ⟨cs, b, ns, n, b2, n2, hc, hd, hf, hi,
            by simp [setLast, hc, hd, List.dropLast_concat]⟩
        | none => rw [hi] at h; cases h
    | none =>
      rw [hf] at h
      right
      cases hg : BuilderData.new.append_raw command bits with
      | some code =>
        rw [hg] at h
        cases h
        exact ⟨code, rfl, rfl⟩
      | none => rw [hg] at h; cases h

theorem write_composite_command_ok_inv {w : CodePage0} {command : List Bool}
    {reference : BuilderData} {pos : DbgPos} {dbg : DbgNode} {w2 : CodePage0}
    (h : w.write_composite_command command reference pos dbg = .ok w2) :
    (∃ cs b ns n b2 b3 n2, w.cells = cs ++ [b] ∧ w.dbg = ns ++ [n]
      ∧ 1 < b.references_free
      ∧ b.append_raw command command.length = some b2
      ∧ b2.checked_append_reference reference.into_cell = some b3
      ∧ (n.append b.bits_used pos).append_node dbg = some n2
      ∧ w2 = ⟨cs ++ [b3], ns ++ [n2]⟩)
    ∨ (∃ code2 code3 node,
        BuilderData.new.append_raw command command.length = some code2
        ∧ code2.checked_append_reference reference.into_cell = some code3
        ∧ ((DbgNode.new).append 0 pos).append_node dbg = some node
        ∧ w2 = ⟨w.cells ++ [code3], w.dbg ++ [node]⟩) := by
  have hfresh :
      (match (BuilderData.new.append_raw command command.length).bind
          (fun code => code.checked_append_reference reference.into_cell) with
        | some code =>
          match ((DbgNode.new).append 0 pos).append_node dbg with
          | some node => WriterRes.ok ⟨w.cells ++ [code], w.dbg ++ [node]⟩
          | none => WriterRes.panicked
        | none => WriterRes.err .notFitInSlice w) = .ok w2 →
      (∃ code2 code3 node,
        BuilderData.new.append_raw command command.length = some code2
        ∧ code2.checked_append_reference reference.into_cell = some code3
        ∧ ((DbgNode.new).append 0 pos).append_node dbg = some node
        ∧ w2 = ⟨w.cells ++ [code3], w.dbg ++ [node]⟩) := by
    intro hyp
    cases ha : BuilderData.new.append_raw command command.length with
    | none => rw [ha] at hyp; cases hyp
    | some code2 =>
      rw [ha] at hyp
      simp only [Option.some_bind] at hyp
      cases hb : code2.checked_append_reference reference.into_cell with
      | none => rw [hb] at hyp; cases hyp
      | some code3 =>
        rw [hb] at hyp
        cases hn : ((DbgNode.new).append 0 pos).append_node dbg with
        | none => rw [hn] at hyp; cases hyp
        | some node =>
          rw [hn] at hyp
          cases hyp
          exact ⟨code2, code3, node, rfl, hb, rfl, rfl⟩
  simp only [CodePage0.write_composite_command] at h
  rcases List.eq_nil_or_concat' w.cells with hc | ⟨cs, b, hc⟩
  · rw [show w.cells.getLast? = none from by rw [hc]; rfl] at h
    exact Or.inr (hfresh h)
  · rw [show w.cells.getLast? = some b from by rw [hc]; exact List.getLast?_concat _] at h
    simp only [] at h
    by_cases hr : 1 < b.references_free
    · rw [if_pos hr] at h
      cases ha : b.append_raw command command.length with
      | none => rw [ha] at h; exact Or.inr (hfresh h)
      | some b2 =>
        rw [ha] at h
        simp only [] at h
        cases hb : b2.checked_append_reference reference.into_cell with
        | none => rw [hb] at h; exact Or.inr (hfresh h)
        | some b3 =>
          rw [hb] at h
          rcases List.eq_nil_or_concat' w.dbg with hd | ⟨ns, n, hd⟩
          · rw [show w.dbg.getLast? = none from by rw [hd]; rfl] at h
            cases h
          · rw [show w.dbg.getLast? = some n from by rw [hd]; exact List.getLast?_concat _] at h
            simp only [] at h
            cases hn : (n.append b.bits_used pos).append_node dbg with
            | none => rw [hn] at h; cases h
            | some n2 =>
              rw [hn] at h
              cases h
              left
              exact ⟨cs, b, ns, n, b2, b3, n2, hc, hd, hr, ha, hb, hn,
                by simp [setLast, hc, hd, List.dropLast_concat]⟩
    · rw [if_neg hr] at h
      exact Or.inr (hfresh h)

/-! ## Claim theorems: writer invariants (C5) -/

theorem runOk_preserves (Q : WriterOp → Prop) (P : CodePage0 → Prop)
    (hstep : ∀ w op w2, Q op → P w → writerStep w op = .ok w2 → P w2) :
    ∀ (ops : List WriterOp) (w w2 : CodePage0), (∀ op ∈ ops, Q op) → P w →
      runOk w ops = some w2 → P w2
  | [], w, w2, _, hw, h => by
    simp only [runOk] at h
    cases h
    exact hw
  | op :: ops, w, w2, hq, hw, h => by
    simp only [runOk] at h
    cases hs : writerStep w op with
    | ok w3 =>
      rw [hs] at h
      exact runOk_preserves Q P hstep ops w3 w2 (fun o ho => hq o (by simp [ho]))
        (hstep w op w3 (hq op (by simp)) hw hs) h
    | err e w3 => rw [hs] at h; cases h
    | panicked => rw [hs] at h; cases h

theorem refs_bound_concat {cs : List BuilderData} {b : BuilderData}
    (hall : ∀ x ∈ cs, x.refs.length ≤ 3) (hb : b.refs.length ≤ 3) :
    ∀ x ∈ cs ++ [b], x.refs.length ≤ 3 := by
  intro x hx
  rcases List.mem_append.mp hx with hx | hx
  · exact hall x hx
  · simp only [List.mem_singleton] at hx
    subst hx
    exact hb

theorem writer_step_refs_inv {w : CodePage0} {op : WriterOp} {w2 : CodePage0}
    (hw : w.cells.length = w.dbg.length ∧ ∀ b ∈ w.cells, b.refs.length ≤ 3)
    (h : writerStep w op = .ok w2) :
    w2.cells.length = w2.dbg.length ∧ ∀ b ∈ w2.cells, b.refs.length ≤ 3 := by
  obtain ⟨hlen, hrefs⟩ := hw
  cases op with
  | cmd c d =>
    rcases write_command_bitstring_ok_inv
        (by simpa [writerStep, CodePage0.write_command] using h) with
      ⟨cs, b, ns, n, b2, n2, hc, hd, hf, _, hw2⟩ | ⟨code, hf, hw2⟩
    · subst hw2
      rw [hc, hd] at hlen
      rw [append_raw_shape hf]
      refine ⟨by simpa using hlen, refs_bound_concat (fun x hx => hrefs x (by simp [hc, hx])) ?_⟩
      exact hrefs b (by simp [hc])
    · subst hw2
      rw [append_raw_shape hf]
      exact ⟨by simp [hlen], refs_bound_concat hrefs (by simp [BuilderData.new])⟩
  | cmdBits c bits d =>
    rcases write_command_bitstring_ok_inv
        (by simpa [writerStep] using h) with
      ⟨cs, b, ns, n, b2, n2, hc, hd, hf, _, hw2⟩ | ⟨code, hf, hw2⟩
    · subst hw2
      rw [hc, hd] at hlen
      rw [append_raw_shape hf]
      refine ⟨by simpa using hlen, refs_bound_concat (fun x hx => hrefs x (by simp [hc, hx])) ?_⟩
      exact hrefs b (by simp [hc])
    · subst hw2
      rw [append_raw_shape hf]
      exact ⟨by simp [hlen], refs_bound_concat hrefs (by simp [BuilderData.new])⟩
  | composite c r p d =>
    rcases write_composite_command_ok_inv (by simpa [writerStep] using h) with
      ⟨cs, b, ns, n, b2, b3, n2, hc, hd, hr, ha, hb, _, hw2⟩ |
      ⟨code2, code3, node, ha, hb, _, hw2⟩
    · subst hw2
      rw [hc, hd] at hlen
      obtain ⟨hb3, _⟩ := checked_append_reference_shape hb
      subst hb3
      rw [append_raw_shape ha]
      refine ⟨by simpa using hlen, refs_bound_concat (fun x hx => hrefs x (by simp [hc, hx])) ?_⟩
      simp only [BuilderData.references_free] at hr
      simp
      omega
    · subst hw2
      obtain ⟨hb3, _⟩ := checked_append_reference_shape hb
      subst hb3
      rw [append_raw_shape ha]
      exact ⟨by simp [hlen], refs_bound_concat hrefs (by simp [BuilderData.new])⟩

/-- C5: after every successful history of writer operations starting from a
fresh writer, the segment list and the debug-node list have equal length and
every segment — the non-last ones and, in particular after a successful
composite write, the last one — retains at least one free reference slot. -/
theorem writer_invariant_c5 (ops : List WriterOp) (w : CodePage0)
    (h : runOk CodePage0.new ops = some w) :
    w.cells.length = w.dbg.length ∧ ∀ b ∈ w.cells, 1 ≤ b.references_free := by
  have hinv := runOk_preserves (fun _ => True)
    (fun v => v.cells.length = v.dbg.length ∧ ∀ b ∈ v.cells, b.refs.length ≤ 3)
    (fun w op w2 _ hw hs => writer_step_refs_inv hw hs)
    ops CodePage0.new w (fun _ _ => trivial)
    (by simp [CodePage0.new, BuilderData.new]) h
  refine ⟨hinv.1, fun b hb => ?_⟩
  have := hinv.2 b hb
  simp only [BuilderData.references_free]
  omega

/-- C5 witness: the invariant after one successful plain write. -/
theorem writer_invariant_c5_witness :
    runOk CodePage0.new [.cmdBits [true] 1 DbgNode.new]
      = some ⟨[⟨[true], []⟩], [DbgNode.new]⟩
    ∧ ((⟨[⟨[true], []⟩], [DbgNode.new]⟩ : CodePage0).cells.length
        = (⟨[⟨[true], []⟩], [DbgNode.new]⟩ : CodePage0).dbg.length
      ∧ ∀ b ∈ (⟨[⟨[true], []⟩], [DbgNode.new]⟩ : CodePage0).cells,
          1 ≤ b.references_free) :=
  ⟨rfl, writer_invariant_c5 [.cmdBits [true] 1 DbgNode.new] ⟨[⟨[true], []⟩], [DbgNode.new]⟩ rfl⟩

/-! ## Claim theorems: structural parity (C2) -/

theorem append_children (n : DbgNode) (off : Nat) (pos : DbgPos) :
    (n.append off pos).children = n.children := rfl

theorem mirrorsList_single {c : Cell} {d : DbgNode} (h : mirrors c d = true) :
    mirrorsList [c] [d] = true := by
  simp [mirrorsList, h]

theorem writer_step_segsOk {w : CodePage0} {op : WriterOp} {w2 : CodePage0}
    (hwf : WfOp op)
    (hs : SegsOk w.cells.reverse w.dbg.reverse)
    (h : writerStep w op = .ok w2) :
    SegsOk w2.cells.reverse w2.dbg.reverse := by
  have hbits : ∀ {c : List Bool} {bits : Nat} {d : DbgNode},
      d.children = [] → w.write_command_bitstring c bits d = .ok w2 →
      SegsOk w2.cells.reverse w2.dbg.reverse := by
    intro c bits d hd0 hcall
    rcases write_command_bitstring_ok_inv hcall with
      ⟨cs, b, ns, n, b2, n2, hc, hd, hf, hi, hw2⟩ | ⟨code, hf, hw2⟩
    · subst hw2
      rw [hc, hd] at hs
      simp only [List.reverse_append, List.reverse_cons, List.reverse_nil,
        List.nil_append, List.singleton_append, SegsOk] at hs ⊢
      refine ⟨?_, hs.2⟩
      rw [mirrors_into_cell, append_raw_shape hf]
      have hch := inline_node_shape hi
      rw [hch, hd0]
      simpa [mirrors_into_cell] using hs.1
    · subst hw2
      simp only [List.reverse_append, List.reverse_cons, List.reverse_nil,
        List.nil_append, List.singleton_append, SegsOk]
      refine ⟨?_, hs⟩
      rw [mirrors_into_cell, append_raw_shape hf, hd0]
      rfl
  cases op with
  | cmd c d =>
    exact hbits hwf (by simpa [writerStep, CodePage0.write_command] using h)
  | cmdBits c bits d =>
    exact hbits hwf (by simpa [writerStep] using h)
  | composite c r p d =>
    rcases write_composite_command_ok_inv (by simpa [writerStep] using h) with
      ⟨cs, b, ns, n, b2, b3, n2, hc, hd, hr, ha, hb, hn, hw2⟩ |
      ⟨code2, code3, node, ha, hb, hn, hw2⟩
    · subst hw2
      rw [hc, hd] at hs
      simp only [List.reverse_append, List.reverse_cons, List.reverse_nil,
        List.nil_append, List.singleton_append, SegsOk] at hs ⊢
      refine ⟨?_, hs.2⟩
      obtain ⟨hb3, _⟩ := checked_append_reference_shape hb
      subst hb3
      obtain ⟨hn2, _⟩ := append_node_shape hn
      subst hn2
      rw [mirrors_into_cell, append_raw_shape ha]
      simp only [DbgNode.children, append_children]
      exact mirrorsList_append (by simpa [mirrors_into_cell] using hs.1)
        (mirrorsList_single hwf)
    · subst hw2
      simp only [List.reverse_append, List.reverse_cons, List.reverse_nil,
        List.nil_append, List.singleton_append, SegsOk]
      refine ⟨?_, hs⟩
      obtain ⟨hb3, _⟩ := checked_append_reference_shape hb
      subst hb3
      obtain ⟨hn2, _⟩ := append_node_shape hn
      subst hn2
      rw [mirrors_into_cell, append_raw_shape ha]
      simp only [DbgNode.children, append_children, BuilderData.new]
      exact mirrorsList_single hwf
  
theorem finalizeStep_mirrors {dest : BuilderData} {next : DbgNode} {cursor : BuilderData}
    {cdbg : DbgNode} {c2 : BuilderData} {d2 : DbgNode}
    (hdest : mirrors dest.into_cell next = true)
    (hcur : mirrors cursor.into_cell cdbg = true)
    (hstep : finalizeStep dest next cursor cdbg = some (c2, d2)) :
    mirrors c2.into_cell d2 = true := by
  simp only [finalizeStep] at hstep
  have hlink : (next.append_node cdbg).map
      (fun n => (dest.append_reference_cell cursor.into_cell, n)) = some (c2, d2) →
      mirrors c2.into_cell d2 = true := by
    intro hyp
    cases hn : next.append_node cdbg with
    | none => rw [hn] at hyp; cases hyp
    | some n4 =>
      rw [hn] at hyp
      simp only [Option.map_some'] at hyp
      cases hyp
      obtain ⟨hn4, _⟩ := append_node_shape hn
      subst hn4
      rw [mirrors_into_cell]
      simp only [BuilderData.append_reference_cell, DbgNode.children]
      exact mirrorsList_append (by simpa [mirrors_into_cell] using hdest)
        (mirrorsList_single hcur)
  split at hstep
  · cases ha : dest.checked_append_references_and_data cursor.into_cell with
    | some dd =>
      rw [ha] at hstep
      cases hi : next.inline_node dest.bits_used cdbg with
      | none => rw [hi] at hstep; cases hstep
      | some n2 =>
        rw [hi] at hstep
        simp only [Option.map_some'] at hstep
        cases hstep
        obtain ⟨hdd, _, _⟩ := checked_append_refs_data_shape ha
        subst hdd
        have hch := inline_node_shape hi
        rw [mirrors_into_cell, hch]
        simp only [BuilderData.into_cell, Cell.refs]
        exact mirrorsList_append (by simpa [mirrors_into_cell] using hdest)
          (by simpa [mirrors_into_cell] using hcur)
    | none =>
      rw [ha] at hstep
      exact hlink hstep
  · exact hlink hstep

theorem finalizeAux_mirrors :
    ∀ (cells : List BuilderData) (dbgs : List DbgNode) (cursor : BuilderData)
      (cdbg : DbgNode) (root : BuilderData) (d : DbgNode),
      SegsOk cells dbgs → mirrors cursor.into_cell cdbg = true →
      finalizeAux cells dbgs cursor cdbg = some (root, d) →
      mirrors root.into_cell d = true
  | [], _, cursor, cdbg, root, d, _, hm, h => by
    simp only [finalizeAux] at h
    cases h
    exact hm
  | _ :: _, [], _, _, _, _, hs, _, _ => by
    simp only [SegsOk] at hs
  | b :: bs, n :: ns, cursor, cdbg, root, d, hs, hm, h => by
    simp only [SegsOk] at hs
    simp only [finalizeAux] at h
    cases hstep : finalizeStep b n cursor cdbg with
    | none => rw [hstep] at h; cases h
    | some p =>
      obtain ⟨c, dd⟩ := p
      rw [hstep] at h
      exact finalizeAux_mirrors bs ns c dd root d hs.2
        (finalizeStep_mirrors hs.1 hm hstep) h

theorem finalize_mirrors {w : CodePage0} {root : BuilderData} {d : DbgNode}
    (hs : SegsOk w.cells.reverse w.dbg.reverse)
    (h : w.finalize = some (root, d)) :
    mirrors root.into_cell d = true := by
  simp only [CodePage0.finalize] at h
  cases hc : w.cells.reverse with
  | nil =>
    rw [hc] at h
    cases hd : w.dbg.reverse with
    | nil => rw [hd] at h; cases h
    | cons n ns => rw [hd] at h; cases h
  | cons c cs =>
    rw [hc] at h
    cases hd : w.dbg.reverse with
    | nil => rw [hd] at h; cases h
    | cons n ns =>
      rw [hd] at h
      simp only [] at h
      rw [hc, hd] at hs
      simp only [SegsOk] at hs
      exact finalizeAux_mirrors cs ns c n root d hs.2 hs.1 h

mutual

theorem collect_isSome :
    ∀ (info : DbgInfo) (cell : Cell) (dbg : DbgNode), mirrors cell dbg = true →
      (DbgInfo.collect info cell dbg).isSome = true
  | info, .mk cdata crefs, .mk o children, h => by
    simp only [DbgInfo.collect]
    exact collectChildren_isSome _ crefs children (by simpa [mirrors, DbgNode.children] using h)

theorem collectChildren_isSome :
    ∀ (info : DbgInfo) (cs : List Cell) (ds : List DbgNode), mirrorsList cs ds = true →
      (collectChildren info cs ds).isSome = true
  | info, [], ds, _ => by simp [collectChildren]
  | info, c :: cs, [], h => by simp [mirrorsList] at h
  | info, c :: cs, d :: ds, h => by
    simp only [mirrorsList, Bool.and_eq_true] at h
    simp only [collectChildren]
    have h1 := collect_isSome info c d h.1
    cases hcol : DbgInfo.collect info c d with
    | none => rw [hcol] at h1; cases h1
    | some i2 =>
      exact collectChildren_isSome i2 cs ds h.2

end

/-- C2 (amended): for every successful history of well-formed writer calls —
each plain command carrying a childless debug node and each composite
command a debug node structurally mirroring its reference cell — followed by
finalize, the lockstep traversal of the root cell and root debug node meets
equal reference/child counts at every node, and building a `DbgInfo` from
the pair never fails the equal-counts check. -/
theorem writer_parity_c2 (ops : List WriterOp) (w : CodePage0) (root : BuilderData)
    (d : DbgNode)
    (hwf : ∀ op ∈ ops, WfOp op)
    (hrun : runOk CodePage0.new ops = some w)
    (hfin : w.finalize = some (root, d)) :
    mirrors root.into_cell d = true
    ∧ (DbgInfo.fromCellNode root.into_cell d).isSome = true := by
  have hs : SegsOk w.cells.reverse w.dbg.reverse :=
    runOk_preserves WfOp (fun v => SegsOk v.cells.reverse v.dbg.reverse)
      (fun _ _ _ hq hw hstep => writer_step_segsOk hq hw hstep)
      ops CodePage0.new w hwf ⟨rfl, trivial⟩ hrun
  have hm := finalize_mirrors hs hfin
  exact ⟨hm, collect_isSome DbgInfo.new root.into_cell d hm⟩

/-- C2 witness: the parity statement after one well-formed plain write. -/
theorem writer_parity_c2_witness :
    (∀ op ∈ ([.cmdBits [true] 1 DbgNode.new] : List WriterOp), WfOp op)
    ∧ runOk CodePage0.new [.cmdBits [true] 1 DbgNode.new]
        = some ⟨[⟨[true], []⟩], [DbgNode.new]⟩
    ∧ CodePage0.finalize ⟨[⟨[true], []⟩], [DbgNode.new]⟩
        = some (⟨[true], []⟩, DbgNode.new)
    ∧ (mirrors (BuilderData.mk [true] []).into_cell DbgNode.new = true
      ∧ (DbgInfo.fromCellNode (BuilderData.mk [true] []).into_cell DbgNode.new).isSome
          = true) :=
  ⟨by intro op hop; rw [List.mem_singleton] at hop; subst hop; rfl, rfl, rfl,
    writer_parity_c2 [.cmdBits [true] 1 DbgNode.new] ⟨[⟨[true], []⟩], [DbgNode.new]⟩
      (BuilderData.mk [true] []) DbgNode.new
      (by intro op hop; rw [List.mem_singleton] at hop; subst hop; rfl) rfl rfl⟩

/-- C2 counterexample: passing a debug node that already has one child to a
plain `write_command_bitstring` call succeeds, and after finalize the root
cell has zero references while the root debug node has one child — the
lockstep counts differ at the very first node, so the claim fails for
arbitrary writer histories. -/
theorem writer_parity_counterexample :
    runOk CodePage0.new [.cmdBits [true] 1 (DbgNode.mk [] [DbgNode.new])]
      = some ⟨[⟨[true], []⟩], [DbgNode.mk [] [DbgNode.new]]⟩
    ∧ CodePage0.finalize ⟨[⟨[true], []⟩], [DbgNode.mk [] [DbgNode.new]]⟩
      = some (⟨[true], []⟩, DbgNode.mk [] [DbgNode.new])
    ∧ mirrors (BuilderData.mk [true] []).into_cell (DbgNode.mk [] [DbgNode.new]) = false :=
  ⟨rfl, rfl, rfl⟩
